import Mathlib

/-!
Verification of the `cmdstat` table-rendering and ranking engine.

The development shallowly embeds the program's core (src/main.rs, src/table.rs):
the usage-bar quantizer `get_bar`, the column-name parser `TableColumn::from_str`,
the cell/row/table data model with `Cell::as_number`, `Table::calc_cell_widths`,
`Table::sort`, and the `Display` rendering.

`get_bar` performs `f64` arithmetic.  It is modelled exactly: `fl` rounds a
rational to the nearest IEEE binary64 value (round-to-nearest, ties-to-even,
with unbounded exponent range — faithful here because every value arising in
`get_bar` for the stated input ranges lies far inside the normal range, so no
overflow, underflow or subnormal rounding can occur).
-/

-- The irreducible marking of these kernel-computable rational operations is
-- lifted locally so that concrete evaluations can be discharged by `decide`.
attribute [local semireducible] Rat.add Rat.mul Rat.sub Rat.inv

/-- Fuel-driven base-2 logarithm on `ℕ`, written with a bare `Nat.rec` so that
the kernel can evaluate it lazily on large literals. -/
def lg2F (fuel : ℕ) : ℕ → ℕ :=
  Nat.rec (motive := fun _ => ℕ → ℕ) (fun _ => 0)
    (fun _ ih n => if n ≤ 1 then 0 else ih (n / 2) + 1) fuel

/-- Floor of the base-2 logarithm: for `1 ≤ n`, `2 ^ natLg2 n ≤ n < 2 ^ (natLg2 n + 1)`. -/
def natLg2 (n : ℕ) : ℕ := lg2F n n

/-- Ceiling of the base-2 logarithm: least `k` with `n ≤ 2 ^ k`. -/
def natClg2 (n : ℕ) : ℕ := if n ≤ 1 then 0 else natLg2 (n - 1) + 1

/-- Powers of two as rationals, with integer exponent. -/
def pow2 (e : ℤ) : ℚ := if 0 ≤ e then ((2 ^ e.toNat : ℕ) : ℚ) else (((2 ^ (-e).toNat : ℕ) : ℚ))⁻¹

/-- Round a rational to the nearest integer, ties to even. -/
def rne (q : ℚ) : ℤ :=
  if q - ⌊q⌋ < 1/2 then ⌊q⌋
  else if 1/2 < q - ⌊q⌋ then ⌊q⌋ + 1
  else if ⌊q⌋ % 2 = 0 then ⌊q⌋ else ⌊q⌋ + 1

/-- Binary exponent of a positive rational: the unique `e` with `2^e ≤ q < 2^(e+1)`. -/
def qExp (q : ℚ) : ℤ :=
  if 1 ≤ q then (natLg2 ⌊q⌋.toNat : ℤ)
  else -(natClg2 ((q.den + q.num.toNat - 1) / q.num.toNat) : ℤ)

/-- Round a positive rational to 53 significant binary digits (nearest, ties even). -/
def flPos (q : ℚ) : ℚ :=
  ((rne (q / pow2 (qExp q - 52)) : ℤ) : ℚ) * pow2 (qExp q - 52)

/-- Round a rational to the nearest IEEE binary64 value (unbounded exponent range). -/
def fl (q : ℚ) : ℚ := if 0 < q then flPos q else if q < 0 then -flPos (-q) else 0

/-- Round half away from zero, the semantics of Rust's `f64::round`. -/
def rha (q : ℚ) : ℤ := if 0 ≤ q then ⌊q + 1/2⌋ else -⌊-q + 1/2⌋

/-- A rational is representable as a binary64 value (unbounded exponent
range): an integer significand of magnitude below 2⁵³ times a power of two. -/
def IsRep (q : ℚ) : Prop := ∃ m e : ℤ, m.natAbs < 2 ^ 53 ∧ q = (m : ℚ) * pow2 e

/-- Glyph table of `main.rs` (`BAR_CHARS`): one-eighth to full block characters. -/
def BAR_CHARS : List String := ["▏", "▎", "▍", "▌", "▋", "▊", "▉", "█"]

/-- Repetition of a string, modelling Rust's `str::repeat`. -/
def strRepeat (s : String) (n : ℕ) : String := String.join (List.replicate n s)

/-- The `f64` value `scaled_percentage` computed by `get_bar`:
`(percentage as f64 / 100.0) * term_width as f64`, with a binary64 rounding
after the division and after the multiplication (the `usize → f64` casts round
too, which matters only for `term_width ≥ 2^53`). -/
def gbScaled (percentage termWidth : ℕ) : ℚ :=
  fl (fl (fl (percentage : ℚ) / 100) * fl (termWidth : ℚ))

/-- The `usize` value `full_bars = scaled_percentage.floor() as usize`:
`f64::floor` is exact on binary64 values, and the `as usize` cast saturates at
`0` and `usize::MAX`. -/
def gbFull (percentage termWidth : ℕ) : ℕ :=
  min (⌊gbScaled percentage termWidth⌋.toNat) (2 ^ 64 - 1)

/-- The `f64` difference `scaled_percentage - full_bars as f64`. -/
def gbFrac (percentage termWidth : ℕ) : ℚ :=
  fl (gbScaled percentage termWidth - fl ((gbFull percentage termWidth : ℕ) : ℚ))

/-- The `usize` value `remainder = ((scaled - full) * 10.0).round() as usize`:
one rounded binary64 multiplication, then Rust's round-half-away-from-zero,
then the saturating float-to-integer cast (clamping below at `0`). -/
def gbRem (percentage termWidth : ℕ) : ℕ :=
  (rha (fl (gbFrac percentage termWidth * 10))).toNat

/-- The `match remainder` arm choosing the trailing glyph index in `get_bar`;
`none` models the `unreachable!()` arm. -/
def barIndex : ℕ → Option ℕ
  | 0 => some 0
  | 1 => some 0
  | 2 => some 1
  | 3 => some 2
  | 4 => some 2
  | 5 => some 3
  | 6 => some 3
  | 7 => some 4
  | 8 => some 5
  | 9 => some 6
  | 10 => some 7
  | _ => none

/-- Model of `get_bar` (main.rs).  Returns `none` exactly when the
`unreachable!()` arm would be hit (it never is — see the safety theorem). -/
def get_bar (percentage termWidth : ℕ) : Option String :=
  (barIndex (gbRem percentage termWidth)).map
    (fun i => strRepeat (BAR_CHARS.getD 7 "") (gbFull percentage termWidth) ++ BAR_CHARS.getD i "")

/-- The output column kinds (`TableColumn` in main.rs).  `Type'` stands for the
Rust variant `Type`, which is a reserved word in Lean. -/
inductive TableColumn where
  | Command
  | Count
  | Usage
  | Percent
  | Dirs
  | Type'
deriving DecidableEq

/-- ASCII lowercasing of a string.  Rust's `str::to_lowercase` additionally
lowers non-ASCII letters; the parser compares the result against plain ASCII
alias strings, for which the ASCII mapping is the relevant fragment. -/
def lowerAscii (s : String) : String := String.mk (s.data.map Char.toLower)

/-- Model of `TableColumn::from_str` (main.rs): case-insensitive alias match,
unknown names rejected with an error carrying the input verbatim. -/
def TableColumn.from_str (s : String) : Except String TableColumn :=
  let l := lowerAscii s
  if l = "command" ∨ l = "cmd" then .ok .Command
  else if l = "count" ∨ l = "calls" then .ok .Count
  else if l = "usage" ∨ l = "bar" then .ok .Usage
  else if l = "percent" ∨ l = "pct" ∨ l = "%" then .ok .Percent
  else if l = "type" then .ok .Type'
  else .error ("cmdstat: invalid column name \x60" ++ s ++ "\x27")

/-- The documented aliases of each column kind (spec §4.3). -/
def TableColumn.aliases : TableColumn → List String
  | .Command => ["command", "cmd"]
  | .Count => ["count", "calls"]
  | .Usage => ["usage", "bar"]
  | .Percent => ["percent", "pct", "%"]
  | .Type' => ["type"]
  | .Dirs => []

/-- Every recognised column-name alias. -/
def allAliases : List String :=
  ["command", "cmd", "count", "calls", "usage", "bar", "percent", "pct", "%", "type"]

/-- Model of crossterm's `Color` enum (an external collaborator): the named
colors plus RGB and raw ANSI values. -/
inductive CtColor where
  | black | darkGrey | red | darkRed | green | darkGreen | yellow | darkYellow
  | blue | darkBlue | magenta | darkMagenta | cyan | darkCyan | white | grey
  | rgb (r g b : ℕ)
  | ansiValue (v : ℕ)
deriving DecidableEq

/-- Model of `Cell` (table.rs): content string, two layout flags and an
optional foreground color. -/
structure Cell where
  content : String
  append_spacer : Bool
  truncate_for_space : Bool
  color : Option CtColor
deriving DecidableEq

/-- Model of `Cell::new`. -/
def Cell.new (content : String) : Cell :=
  { content := content, append_spacer := true, truncate_for_space := false, color := none }

/-- Model of `Cell::with_color`. -/
def Cell.with_color (c : Cell) (col : CtColor) : Cell := { c with color := some col }

/-- The `#[derive(Default)]` cell (used here only as the out-of-bounds default
of `List.getD` where the Rust code would panic on an out-of-range index). -/
def defaultCell : Cell :=
  { content := "", append_spacer := false, truncate_for_space := false, color := none }

/-- Whitespace trimming on both ends, modelling `str::trim`.  Lean's
`Char.isWhitespace` covers the ASCII whitespace characters, the fragment
relevant to the numeric cells this program produces. -/
def trimChars (cs : List Char) : List Char :=
  ((cs.dropWhile Char.isWhitespace).reverse.dropWhile Char.isWhitespace).reverse

/-- Strips one leading `+`, which Rust's `u64::from_str` accepts (a leading
`-` is not accepted by the unsigned parser and falls into the digit check). -/
def stripPlus (cs : List Char) : List Char :=
  match cs with
  | [] => []
  | c :: rest => if c = '+' then rest else c :: rest

/-- Numeric value of an ASCII digit. -/
def digitVal (c : Char) : ℕ := c.toNat - 48

/-- Model of `str::parse::<u64>`: optional leading `+`, then one or more ASCII
digits, rejected on overflow past `u64::MAX` (the step-by-step `checked_mul` /
`checked_add` overflow test fails exactly when the full value does not fit). -/
def parseU64 (cs : List Char) : Option ℕ :=
  let ds := stripPlus cs
  if ds.isEmpty then none
  else if ds.all Char.isDigit then
    let v := ds.foldl (fun a c => a * 10 + digitVal c) 0
    if v < 2 ^ 64 then some v else none
  else none

/-- Model of `Cell::as_number` (table.rs): `self.content.trim().parse::<u64>().ok()`. -/
def Cell.as_number (c : Cell) : Option ℕ := parseU64 (trimChars c.content.data)

/-- Decimal value of a most-significant-first digit list (the claim-side
reading of "the parsed integer"). -/
def decValue (ds : List Char) : ℕ := Nat.ofDigits 10 (ds.map digitVal).reverse

/-- Model of `Row` (table.rs). -/
structure Row where
  cells : List Cell
deriving DecidableEq

/-- Model of `Row::with_cell`. -/
def Row.with_cell (r : Row) (c : Cell) : Row := ⟨r.cells ++ [c]⟩

/-- Model of `Table` (table.rs). -/
structure Table where
  title : Option String
  headings : List String
  columns : ℕ
  rows : List Row
  spacer : Option Char
  sort_by : Option ℕ
  reverse : Bool
  no_header : Bool

/-- The row-arity invariant that `calc_cell_widths` asserts: every row has
exactly `columns` cells. -/
def Table.wf (t : Table) : Prop := ∀ r ∈ t.rows, r.cells.length = t.columns

/-- Code-point comparison of characters: Rust `char` ordering. -/
def charCmp (a b : Char) : Ordering := compare a.toNat b.toNat

/-- Lexicographic comparison of character lists.  Rust compares `String`s by
UTF-8 bytes, which orders identically to code-point-lexicographic order. -/
def listCmp : List Char → List Char → Ordering
  | [], [] => .eq
  | [], _ :: _ => .lt
  | _ :: _, [] => .gt
  | x :: xs, y :: ys =>
    match charCmp x y with
    | .eq => listCmp xs ys
    | o => o

/-- Rust `Ord::cmp` on strings. -/
def strCmp (a b : String) : Ordering := listCmp a.data b.data

/-- The comparator closure inside `Table::sort` (table.rs lines 78–103).
`rawW` models `UnicodeWidthStr::width` (used without ANSI stripping in the
`Usage` branch).  Out-of-range cell indexing, which would panic in Rust, is
modelled with `getD`; the sort theorems assume well-formed tables. -/
def rowCompare (rawW : String → ℕ) (headings : List String) (colIdx : ℕ) (rev : Bool)
    (a b : Row) : Ordering :=
  let cellA := a.cells.getD colIdx defaultCell
  let cellB := b.cells.getD colIdx defaultCell
  match cellA.as_number, cellB.as_number with
  | some an, some bn =>
    let ord := compare bn an
    if rev then ord.swap else ord
  | _, _ =>
    let ord :=
      if headings.getD colIdx "" = "Usage" then compare (rawW cellA.content) (rawW cellB.content)
      else strCmp cellB.content cellA.content
    if rev then ord else ord.swap

/-- Model of `Table::sort`: `rows.sort_by(comparator)` with the sort column
`sort_by.unwrap_or_default()`.  Rust's `sort_by` is a stable sort; insertion
sort is stable and therefore extensionally identical on any comparator that is
a total preorder on the rows present (which the sort theorems ensure). -/
def Table.sortModel (rawW : String → ℕ) (t : Table) : Table :=
  let sorted := List.insertionSort
    (fun a b => rowCompare rawW t.headings (t.sort_by.getD 0) t.reverse a b ≠ Ordering.gt) t.rows
  { t with rows := sorted }

/-- The cell of a row in the table's configured sort column. -/
def sortCell (t : Table) (r : Row) : Cell := r.cells.getD (t.sort_by.getD 0) defaultCell

/-- The numeric key of a row in the sort column, when its cell parses. -/
def numKey (t : Table) (r : Row) : Option ℕ := (sortCell t r).as_number

/-- The textual key of a row in the sort column. -/
def strKey (t : Table) (r : Row) : String := (sortCell t r).content

/-- The loop body `update_cell_widths` (table.rs): walk the cells of one line,
taking the maximum with the stored width at each index and appending widths
for indexes not seen before (`Vec::insert` at the end is an append because the
iteration index never skips past the vector length).  `visW` models
`console::strip_ansi_codes(cell).width()`. -/
def updWidths (visW : String → ℕ) : List ℕ → List String → List ℕ
  | ws, [] => ws
  | [], s :: ss => visW s :: updWidths visW [] ss
  | w :: ws, s :: ss => max w (visW s) :: updWidths visW ws ss

/-- Model of `Table::calc_cell_widths`: headings first, then every row.  The
row-arity `assert!` is a hypothesis of the width theorems. -/
def Table.calc_cell_widths (visW : String → ℕ) (t : Table) : List ℕ :=
  t.rows.foldl (fun ws r => updWidths visW ws (r.cells.map Cell.content)) (updWidths visW [] t.headings)

/-- Claim-side variant of the width computation following the spec's words:
the heading text is counted "only if headers are shown". -/
def claimWidths (visW : String → ℕ) (t : Table) : List ℕ :=
  t.rows.foldl (fun ws r => updWidths visW ws (r.cells.map Cell.content))
    (updWidths visW [] (if t.no_header then [] else t.headings))

/-- Per-column maximum over the heading (when present) and all row cells at
one column index — the specification-level description of a computed width. -/
def colWidthSpec (visW : String → ℕ) (t : Table) (j : ℕ) : ℕ :=
  max ((t.headings.get? j).elim 0 visW)
    (t.rows.foldr
      (fun r acc =>
        match r.cells.get? j with
        | some c => max (visW c.content) acc
        | none => acc)
      0)

/-- The loop in `Table::fmt` that raises each width to its heading's visible
width (a no-op after `calc_cell_widths`, reproduced for fidelity). -/
def adjWidths (visW : String → ℕ) : List ℕ → List String → List ℕ
  | [], _ => []
  | w :: ws, [] => w :: adjWidths visW ws []
  | w :: ws, h :: hs => max w (visW h) :: adjWidths visW ws hs

/-- A horizontal rule: `"-".repeat(widths.iter().sum::<usize>() + self.columns)`. -/
def ruleStr (widths : List ℕ) (columns : ℕ) : String :=
  String.mk (List.replicate (widths.sum + columns) '-')

/-- One padded field: `format!("{:<width$} ", text)`.  Rust's formatting width
pads by character count. -/
def padCell (s : String) (w : ℕ) : String :=
  s ++ String.mk (List.replicate (w - s.length) ' ') ++ " "

/-- One rendered data row: each cell padded to its column width, the padded
text wrapped by the cell's color (via `colorize`, which models crossterm's
`Stylize::with`), then a newline. -/
def renderRow (colorize : CtColor → String → String) (widths : List ℕ) (r : Row) : String :=
  String.join (r.cells.enum.map (fun ic =>
    match ic.2.color with
    | some col => colorize col (padCell ic.2.content (widths.getD ic.1 0))
    | none => padCell ic.2.content (widths.getD ic.1 0))) ++ "\n"

/-- Model of `impl Display for Table` (table.rs lines 107–153): empty output
when the width vector is empty; otherwise optional title plus rule (only when
there are headings and headers are not suppressed), the heading row and a
rule, the data rows, and a final rule unless headers are suppressed. -/
def Table.render (colorize : CtColor → String → String) (visW : String → ℕ) (t : Table) : String :=
  let widths0 := t.calc_cell_widths visW
  if widths0.isEmpty then ""
  else
    let widths := adjWidths visW widths0 t.headings
    let headerPart :=
      if ¬t.headings.isEmpty ∧ ¬t.no_header then
        (match t.title with
         | some ti => ti ++ "\n" ++ ruleStr widths t.columns ++ "\n"
         | none => "")
        ++ String.join (t.headings.enum.map (fun ih => padCell ih.2 (widths.getD ih.1 0)))
        ++ "\n" ++ ruleStr widths t.columns ++ "\n"
      else ""
    let rowsPart := String.join (t.rows.map (renderRow colorize widths))
    let finalRule := if t.no_header then "" else ruleStr widths t.columns ++ "\n"
    headerPart ++ rowsPart ++ finalRule

/-- Display width instantiated for plain printable-ASCII content (no escape
sequences, no wide glyphs), where `console::strip_ansi_codes` is the identity
and `UnicodeWidthStr::width` is the character count.  Used to close the
concrete counterexamples and witnesses, whose strings are all of this form. -/
def asciiW (s : String) : ℕ := s.length

/-- A colorizer for closed statements about tables whose cells carry no color
(the branch applying it is never taken there). -/
def noColorize (_ : CtColor) (s : String) : String := s

/-- A one-cell row with default cell flags, as `Row::new().with_cell(Cell::new(s))`. -/
def row1 (s : String) : Row := ⟨[Cell.new s]⟩

/-- Single-column table holding Command values `b`, `a`, `c`, sorted by that
column (spec §8.4). -/
def tLex (rev : Bool) : Table :=
  ⟨none, ["Command"], 1, [row1 "b", row1 "a", row1 "c"], none, some 0, rev, false⟩

/-- Single-column table holding Count values `10`, `5`, `20`, sorted by that
column (spec §8.3). -/
def tNum (rev : Bool) : Table :=
  ⟨none, ["Count"], 1, [row1 "10", row1 "5", row1 "20"], none, some 0, rev, false⟩

/-- The contents of the first column, in row order. -/
def colContents (t : Table) : List String :=
  t.rows.map (fun r => (r.cells.getD 0 defaultCell).content)

/-- A table with a title, no headings, and one row — the title-suppression
counterexample. -/
def tTitleNoHeadings : Table :=
  ⟨some "T", [], 1, [row1 "x"], none, none, false, false⟩

/-- A table whose single computed column width is zero but whose width vector
is nonempty. -/
def tZeroWidth : Table :=
  ⟨none, [], 1, [row1 ""], none, none, false, false⟩

/-- A table with suppressed headers whose heading is wider than every cell. -/
def tHiddenHeading : Table :=
  ⟨none, ["Heading"], 1, [row1 "x"], none, none, false, true⟩

/-- The empty table: no rows, no headings. -/
def tEmpty : Table :=
  ⟨none, [], 0, [], none, none, false, false⟩

/-- A titled single-column table with one heading and one row. -/
def tTitled : Table :=
  ⟨some "T", ["Command"], 1, [row1 "x"], none, none, false, false⟩

/-- Claim-side eighths remainder (C3's words): `round((scaled - full) * 8)`
over exact arithmetic, clamped to `0..=8`. -/
def specEighths (p w : ℕ) : ℤ :=
  min 8 (max 0 (rha ((((p : ℚ) / 100) * w - ⌊((p : ℚ) / 100) * w⌋) * 8)))

/-- The tenths-remainder glyph table as a flat lookup list: positions `0..=10`
hold the glyph the code's `match` arm selects for that remainder. -/
def tenthsGlyphs : List String :=
  ["▏", "▏", "▎", "▍", "▍", "▌", "▌", "▋", "▊", "▉", "█"]

-- Sanity checks of the binary64 model against well-known double values:
-- `0.29_f64` is 5224175567749775 * 2⁻⁵⁴ and `0.29_f64 * 100.0` is
-- 8162774324609023 * 2⁻⁴⁸ = 28.999999999999996…, `0.2_f64` is
-- 7205759403792794 * 2⁻⁵⁵.
example : fl (29/100) = 5224175567749775 / 2^54 := by decide
example : fl ((5224175567749775 : ℚ) / 2^54 * 100) = 8162774324609023 / 2^48 := by decide
example : fl (1/5) = 7205759403792794 / 2^55 := by decide
example : fl (1/4) = 1/4 := by decide
example : rha (5/2) = 3 := by decide
example : rha (-5/2) = -3 := by decide
example : rne (5/2) = 2 := by decide
example : rne (7/2) = 4 := by decide

-- Pipeline checks (to be promoted into claim theorems below):
example : gbFull 29 100 = 28 := by decide
example : gbRem 29 100 = 10 := by decide
example : gbRem 25 1 = 3 := by decide
example : gbRem 20 1 = 2 := by decide
example : get_bar 25 1 = some "▍" := by decide
example : get_bar 20 1 = some "▎" := by decide
example : get_bar 0 50 = some "▏" := by decide
example : (get_bar 100 50).map String.length = some 51 := by decide

-- Sanity checks of the table model:
example : colContents ((tLex false).sortModel asciiW) = ["a", "b", "c"] := by decide
example : colContents ((tLex true).sortModel asciiW) = ["c", "b", "a"] := by decide
example : colContents ((tNum false).sortModel asciiW) = ["20", "10", "5"] := by decide
example : colContents ((tNum true).sortModel asciiW) = ["5", "10", "20"] := by decide
example : tHiddenHeading.calc_cell_widths asciiW = [7] := by decide
example : claimWidths asciiW tHiddenHeading = [1] := by decide
example : tTitleNoHeadings.render noColorize asciiW = "x \n--\n" := by decide
example : tZeroWidth.render noColorize asciiW = " \n-\n" := by decide
example : tEmpty.render noColorize asciiW = "" := by decide
example : TableColumn.from_str "frobnicate"
    = .error "cmdstat: invalid column name \x60frobnicate\x27" := rfl
example : TableColumn.from_str "CMD" = .ok .Command := rfl
example : (Cell.new "18446744073709551616").as_number = none := by decide
example : (Cell.new "+5").as_number = some 5 := by decide
example : (Cell.new " 42 ").as_number = some 42 := by decide
example : specEighths 20 1 = 2 := by decide
example : specEighths 25 1 = 2 := by decide

/-! ## Ordering and sorting lemmas -/

theorem natCmp_swap (a b : ℕ) : compare a b = (compare b a).swap := by
  rcases Nat.lt_trichotomy a b with h | h | h
  · rw [Nat.compare_eq_lt.2 h, Nat.compare_eq_gt.2 h]; rfl
  · rw [h, Nat.compare_eq_eq.2 rfl]; rfl
  · rw [Nat.compare_eq_gt.2 h, Nat.compare_eq_lt.2 h]; rfl

theorem charCmp_swap (a b : Char) : charCmp a b = (charCmp b a).swap := by
  unfold charCmp
  exact natCmp_swap _ _

theorem listCmp_swap : ∀ xs ys : List Char, listCmp xs ys = (listCmp ys xs).swap := by
  intro xs
  induction xs with
  | nil => intro ys; cases ys <;> rfl
  | cons x xs ih =>
    intro ys
    cases ys with
    | nil => rfl
    | cons y ys =>
      simp only [listCmp]
      rw [charCmp_swap]
      cases charCmp y x <;> simp [Ordering.swap, ih]

theorem strCmp_swap (a b : String) : strCmp a b = (strCmp b a).swap := listCmp_swap _ _

theorem orderedInsert_head? {α : Type} (r : α → α → Prop) [DecidableRel r] (x : α)
    (t : List α) :
    (List.orderedInsert r x t).head? = some x ∨ (List.orderedInsert r x t).head? = t.head? := by
  cases t with
  | nil => left; rfl
  | cons y ys =>
    by_cases h : r x y
    · left; simp [List.orderedInsert, h]
    · right; simp [List.orderedInsert, h]

theorem chain'_orderedInsert {α : Type} (r : α → α → Prop) [DecidableRel r] (S : α → α → Prop)
    (x : α) : ∀ t : List α, List.Chain' S t →
    (∀ y ∈ t, ¬r x y → r y x) →
    (∀ y ∈ t, r x y → S x y) →
    (∀ y ∈ t, r y x → S y x) →
    List.Chain' S (List.orderedInsert r x t) := by
  intro t
  induction t with
  | nil => intro _ _ _ _; simp
  | cons y ys ih =>
    intro hc htot hSx hSy
    by_cases h : r x y
    · simp only [List.orderedInsert, if_pos h]
      exact List.chain'_cons'.2 ⟨fun z hz => by simp at hz; subst hz; exact hSx y (by simp) h,
        hc⟩
    · simp only [List.orderedInsert, if_neg h]
      refine List.chain'_cons'.2 ⟨?_, ?_⟩
      · intro z hz
        rcases orderedInsert_head? r x ys with hh | hh
        · rw [hh] at hz
          simp at hz; subst hz
          exact hSy y (by simp) (htot y (by simp) h)
        · rw [hh] at hz
          exact (List.chain'_cons'.1 hc).1 z hz
      · exact ih hc.tail (fun z hz hrz => htot z (by simp [hz]) hrz)
          (fun z hz hrz => hSx z (by simp [hz]) hrz)
          (fun z hz hrz => hSy z (by simp [hz]) hrz)

theorem chain'_insertionSort {α : Type} (r : α → α → Prop) [DecidableRel r] (S : α → α → Prop)
    (l : List α)
    (htot : ∀ a ∈ l, ∀ b ∈ l, ¬r a b → r b a)
    (himp : ∀ a ∈ l, ∀ b ∈ l, r a b → S a b) :
    List.Chain' S (List.insertionSort r l) := by
  induction l with
  | nil => simp
  | cons a l ih =>
    simp only [List.insertionSort]
    have hmem : ∀ y ∈ List.insertionSort r l, y ∈ l := by
      intro y hy
      exact ((List.perm_insertionSort r l).mem_iff).1 hy
    refine chain'_orderedInsert r S a (List.insertionSort r l)
      (ih (fun p hp q hq => htot p (by simp [hp]) q (by simp [hq]))
          (fun p hp q hq => himp p (by simp [hp]) q (by simp [hq])))
      ?_ ?_ ?_
    · intro y hy hr
      exact htot a (by simp) y (by simp [hmem y hy]) hr
    · intro y hy hr
      exact himp a (by simp) y (by simp [hmem y hy]) hr
    · intro y hy hr
      exact himp y (by simp [hmem y hy]) a (by simp) hr

theorem swap_eq_gt_iff (o : Ordering) : o.swap = .gt ↔ o = .lt := by
  cases o <;> simp [Ordering.swap]

theorem rowCompare_num (rawW : String → ℕ) (headings : List String) (colIdx : ℕ) (rev : Bool)
    (a b : Row) (an bn : ℕ)
    (ha : (a.cells.getD colIdx defaultCell).as_number = some an)
    (hb : (b.cells.getD colIdx defaultCell).as_number = some bn) :
    rowCompare rawW headings colIdx rev a b
      = if rev then (compare bn an).swap else compare bn an := by
  unfold rowCompare
  simp only [ha, hb]

theorem rowCompare_str (rawW : String → ℕ) (headings : List String) (colIdx : ℕ) (rev : Bool)
    (a b : Row)
    (ha : (a.cells.getD colIdx defaultCell).as_number = none)
    (hb : (b.cells.getD colIdx defaultCell).as_number = none)
    (hU : headings.getD colIdx "" ≠ "Usage") :
    rowCompare rawW headings colIdx rev a b
      = if rev then strCmp (b.cells.getD colIdx defaultCell).content
          (a.cells.getD colIdx defaultCell).content
        else (strCmp (b.cells.getD colIdx defaultCell).content
          (a.cells.getD colIdx defaultCell).content).swap := by
  unfold rowCompare
  simp only [ha, hb, if_neg hU]

/-- C2: with both compared cells numeric, `Table::sort` orders rows by
descending numeric value when `reverse` is unset and ascending when it is set;
in particular Count values `[10, 5, 20]` come out `[20, 10, 5]` and,
reversed, `[5, 10, 20]`. -/
theorem c2_numeric_sort :
    (∀ (rawW : String → ℕ) (t : Table), t.reverse = false →
      (∀ r ∈ t.rows, (numKey t r).isSome) →
      List.Chain' (fun a b => (numKey t b).getD 0 ≤ (numKey t a).getD 0) (t.sortModel rawW).rows)
    ∧ (∀ (rawW : String → ℕ) (t : Table), t.reverse = true →
      (∀ r ∈ t.rows, (numKey t r).isSome) →
      List.Chain' (fun a b => (numKey t a).getD 0 ≤ (numKey t b).getD 0) (t.sortModel rawW).rows)
    ∧ colContents ((tNum false).sortModel asciiW) = ["20", "10", "5"]
    ∧ colContents ((tNum true).sortModel asciiW) = ["5", "10", "20"] := by
  refine ⟨?_, ?_, by decide, by decide⟩
  · intro rawW t hrev hnum
    apply chain'_insertionSort
    · intro a ha b hb hr
      obtain ⟨an, han⟩ := Option.isSome_iff_exists.1 (hnum a ha)
      obtain ⟨bn, hbn⟩ := Option.isSome_iff_exists.1 (hnum b hb)
      rw [rowCompare_num rawW t.headings _ _ _ _ bn an hbn han, hrev, if_neg Bool.false_ne_true]
      rw [rowCompare_num rawW t.headings _ _ _ _ an bn han hbn, hrev,
        if_neg Bool.false_ne_true] at hr
      simp only [ne_eq, Decidable.not_not] at hr
      intro hgt
      have h1 := Nat.compare_eq_gt.1 hr
      have h2 := Nat.compare_eq_gt.1 hgt
      omega
    · intro a ha b hb hr
      obtain ⟨an, han⟩ := Option.isSome_iff_exists.1 (hnum a ha)
      obtain ⟨bn, hbn⟩ := Option.isSome_iff_exists.1 (hnum b hb)
      rw [rowCompare_num rawW t.headings _ _ _ _ an bn han hbn, hrev,
        if_neg Bool.false_ne_true] at hr
      have : ¬ an < bn := fun hlt => hr (Nat.compare_eq_gt.2 hlt)
      simp only [han, hbn, Option.getD_some]
      omega
  · intro rawW t hrev hnum
    apply chain'_insertionSort
    · intro a ha b hb hr
      obtain ⟨an, han⟩ := Option.isSome_iff_exists.1 (hnum a ha)
      obtain ⟨bn, hbn⟩ := Option.isSome_iff_exists.1 (hnum b hb)
      rw [rowCompare_num rawW t.headings _ _ _ _ bn an hbn han, hrev, if_pos rfl]
      rw [rowCompare_num rawW t.headings _ _ _ _ an bn han hbn, hrev, if_pos rfl] at hr
      simp only [ne_eq, Decidable.not_not] at hr
      rw [swap_eq_gt_iff] at hr
      intro hgt
      rw [swap_eq_gt_iff] at hgt
      have h1 := Nat.compare_eq_lt.1 hr
      have h2 := Nat.compare_eq_lt.1 hgt
      omega
    · intro a ha b hb hr
      obtain ⟨an, han⟩ := Option.isSome_iff_exists.1 (hnum a ha)
      obtain ⟨bn, hbn⟩ := Option.isSome_iff_exists.1 (hnum b hb)
      rw [rowCompare_num rawW t.headings _ _ _ _ an bn han hbn, hrev, if_pos rfl] at hr
      have : ¬ (compare bn an).swap = .gt := hr
      rw [swap_eq_gt_iff] at this
      have : ¬ bn < an := fun hlt => this (Nat.compare_eq_lt.2 hlt)
      simp only [han, hbn, Option.getD_some]
      omega

/-- Witness for C2 at the concrete Count table `[10, 5, 20]`. -/
theorem c2_numeric_sort_witness :
    List.Chain' (fun a b => (numKey (tNum false) b).getD 0 ≤ (numKey (tNum false) a).getD 0)
      ((tNum false).sortModel asciiW).rows :=
  c2_numeric_sort.1 asciiW (tNum false) rfl (by decide)

/-- C1 counterexample: sorting Command values `["b","a","c"]` with
`reverse=false` yields `["a","b","c"]` (forward order), not the claimed
`["c","b","a"]`; with `reverse=true` it yields `["c","b","a"]`, not the
claimed `["a","b","c"]`. -/
theorem c1_lexical_reverse_counterexample :
    colContents ((tLex false).sortModel asciiW) = ["a", "b", "c"]
    ∧ colContents ((tLex false).sortModel asciiW) ≠ ["c", "b", "a"]
    ∧ colContents ((tLex true).sortModel asciiW) = ["c", "b", "a"]
    ∧ colContents ((tLex true).sortModel asciiW) ≠ ["a", "b", "c"] := by
  refine ⟨by decide, by decide, by decide, by decide⟩

/-- C1 amended: in the non-numeric, non-`Usage` branch the `reverse=false`
path re-inverts the inverted base comparison, so the rows come out in forward
(ascending) lexical order, and `reverse=true` keeps the inverted base, giving
descending order: `["b","a","c"]` sorts to `["a","b","c"]` with
`reverse=false` and to `["c","b","a"]` with `reverse=true`. -/
theorem c1_lexical_sort_amended :
    (∀ (rawW : String → ℕ) (t : Table), t.reverse = false →
      t.headings.getD (t.sort_by.getD 0) "" ≠ "Usage" →
      (∀ r ∈ t.rows, numKey t r = none) →
      List.Chain' (fun a b => strCmp (strKey t a) (strKey t b) ≠ Ordering.gt)
        (t.sortModel rawW).rows)
    ∧ (∀ (rawW : String → ℕ) (t : Table), t.reverse = true →
      t.headings.getD (t.sort_by.getD 0) "" ≠ "Usage" →
      (∀ r ∈ t.rows, numKey t r = none) →
      List.Chain' (fun a b => strCmp (strKey t b) (strKey t a) ≠ Ordering.gt)
        (t.sortModel rawW).rows)
    ∧ colContents ((tLex false).sortModel asciiW) = ["a", "b", "c"]
    ∧ colContents ((tLex true).sortModel asciiW) = ["c", "b", "a"] := by
  refine ⟨?_, ?_, by decide, by decide⟩
  · intro rawW t hrev hU hnone
    apply chain'_insertionSort
    · intro a ha b hb hr
      rw [rowCompare_str rawW t.headings _ _ _ _ (hnone a ha) (hnone b hb) hU, hrev,
        if_neg Bool.false_ne_true] at hr
      rw [rowCompare_str rawW t.headings _ _ _ _ (hnone b hb) (hnone a ha) hU, hrev,
        if_neg Bool.false_ne_true]
      simp only [ne_eq, Decidable.not_not] at hr
      rw [swap_eq_gt_iff] at hr
      rw [strCmp_swap] at hr
      intro hgt
      rw [swap_eq_gt_iff] at hgt
      rw [hgt] at hr
      exact absurd hr (by decide)
    · intro a ha b hb hr
      rw [rowCompare_str rawW t.headings _ _ _ _ (hnone a ha) (hnone b hb) hU, hrev,
        if_neg Bool.false_ne_true] at hr
      show strCmp (strKey t a) (strKey t b) ≠ Ordering.gt
      rw [strCmp_swap]
      intro hgt
      rw [swap_eq_gt_iff] at hgt
      exact hr (by rw [swap_eq_gt_iff]; exact hgt)
  · intro rawW t hrev hU hnone
    apply chain'_insertionSort
    · intro a ha b hb hr
      rw [rowCompare_str rawW t.headings _ _ _ _ (hnone a ha) (hnone b hb) hU, hrev,
        if_pos rfl] at hr
      rw [rowCompare_str rawW t.headings _ _ _ _ (hnone b hb) (hnone a ha) hU, hrev,
        if_pos rfl]
      simp only [ne_eq, Decidable.not_not] at hr
      rw [strCmp_swap, hr]
      decide
    · intro a ha b hb hr
      rw [rowCompare_str rawW t.headings _ _ _ _ (hnone a ha) (hnone b hb) hU, hrev,
        if_pos rfl] at hr
      exact hr

/-- Witness for C1's amended statement at the concrete Command table
`["b","a","c"]` with `reverse=false`. -/
theorem c1_lexical_sort_witness :
    List.Chain' (fun a b => strCmp (strKey (tLex false) a) (strKey (tLex false) b) ≠ Ordering.gt)
      ((tLex false).sortModel asciiW).rows :=
  c1_lexical_sort_amended.1 asciiW (tLex false) rfl (by decide) (by decide)

/-! ## Column-name parsing (C6) -/

/-- C6: column-name parsing is case-insensitive via lowercasing and succeeds
exactly on the documented aliases, mapping each alias to its column kind; any
other input fails with an error that carries the offending input verbatim. -/
theorem c6_column_parse (s : String) :
    (∀ c : TableColumn, TableColumn.from_str s = .ok c ↔ lowerAscii s ∈ c.aliases)
    ∧ (lowerAscii s ∉ allAliases →
        TableColumn.from_str s = .error ("cmdstat: invalid column name \x60" ++ s ++ "\x27")) := by
  unfold TableColumn.from_str
  by_cases h1 : lowerAscii s = "command" ∨ lowerAscii s = "cmd"
  · rw [if_pos h1]
    constructor
    · intro c
      rcases h1 with h | h <;> rw [h] <;> cases c <;> simp [TableColumn.aliases]
    · intro hno
      exact absurd (by rcases h1 with h | h <;> rw [h] <;> decide) hno
  · rw [if_neg h1]
    by_cases h2 : lowerAscii s = "count" ∨ lowerAscii s = "calls"
    · rw [if_pos h2]
      constructor
      · intro c
        rcases h2 with h | h <;> rw [h] <;> cases c <;> simp [TableColumn.aliases]
      · intro hno
        exact absurd (by rcases h2 with h | h <;> rw [h] <;> decide) hno
    · rw [if_neg h2]
      by_cases h3 : lowerAscii s = "usage" ∨ lowerAscii s = "bar"
      · rw [if_pos h3]
        constructor
        · intro c
          rcases h3 with h | h <;> rw [h] <;> cases c <;> simp [TableColumn.aliases]
        · intro hno
          exact absurd (by rcases h3 with h | h <;> rw [h] <;> decide) hno
      · rw [if_neg h3]
        by_cases h4 : lowerAscii s = "percent" ∨ lowerAscii s = "pct" ∨ lowerAscii s = "%"
        · rw [if_pos h4]
          constructor
          · intro c
            rcases h4 with h | h | h <;> rw [h] <;> cases c <;> simp [TableColumn.aliases]
          · intro hno
            exact absurd (by rcases h4 with h | h | h <;> rw [h] <;> decide) hno
        · rw [if_neg h4]
          by_cases h5 : lowerAscii s = "type"
          · rw [if_pos h5]
            constructor
            · intro c
              rw [h5]; cases c <;> simp [TableColumn.aliases]
            · intro hno
              exact absurd (by rw [h5]; decide) hno
          · rw [if_neg h5]
            constructor
            · intro c
              constructor
              · intro hc; exact absurd hc (by simp)
              · intro hmem
                exfalso
                cases c <;> simp [TableColumn.aliases] at hmem <;> tauto
            · intro _; rfl

/-- Witness for C6: parsing `"frobnicate"` fails with the error message
carrying the input verbatim. -/
theorem c6_column_parse_witness :
    TableColumn.from_str "frobnicate" = .error "cmdstat: invalid column name \x60frobnicate\x27" :=
  (c6_column_parse "frobnicate").2 (by decide)

/-! ## Numeric cell interpretation (C7) -/

theorem foldl_digits (ds : List Char) : ∀ a : ℕ,
    ds.foldl (fun a c => a * 10 + digitVal c) a = a * 10 ^ ds.length + decValue ds := by
  induction ds with
  | nil => intro a; simp [decValue, Nat.ofDigits_nil]
  | cons c cs ih =>
    intro a
    simp only [List.foldl_cons, ih (a * 10 + digitVal c), decValue, List.map_cons,
      List.reverse_cons, Nat.ofDigits_append, List.length_reverse, List.length_map,
      Nat.ofDigits_singleton, List.length_cons]
    ring

theorem parseU64_eq_some (cs : List Char) (n : ℕ) :
    parseU64 cs = some n ↔
      ∃ ds : List Char, (cs = ds ∨ cs = '+' :: ds) ∧ ds ≠ []
        ∧ (∀ d ∈ ds, d.isDigit) ∧ n = decValue ds ∧ n < 2 ^ 64 := by
  constructor
  · intro h
    unfold parseU64 at h
    by_cases hempty : (stripPlus cs).isEmpty
    · rw [if_pos hempty] at h; exact absurd h (by simp)
    · rw [if_neg hempty] at h
      by_cases hdig : (stripPlus cs).all Char.isDigit
      · rw [if_pos hdig] at h
        by_cases hlt : (stripPlus cs).foldl (fun a c => a * 10 + digitVal c) 0 < 2 ^ 64
        · rw [if_pos hlt] at h
          refine ⟨stripPlus cs, ?_, ?_, ?_, ?_, ?_⟩
          · cases cs with
            | nil => left; rfl
            | cons c rest =>
              by_cases hc : c = '+'
              · right; rw [hc]; simp [stripPlus]
              · left; simp [stripPlus, hc]
          · intro hnil; rw [hnil] at hempty; exact hempty rfl
          · exact fun d hd => List.all_eq_true.1 hdig d hd
          · have := foldl_digits (stripPlus cs) 0
            simp only [zero_mul, zero_add] at this
            rw [← Option.some_inj.1 h, this]
          · rw [← Option.some_inj.1 h]; exact hlt
        · rw [if_neg hlt] at h; exact absurd h (by simp)
      · rw [if_neg hdig] at h; exact absurd h (by simp)
  · rintro ⟨ds, hOr, hne, hdig, hn, hlt⟩
    have hstrip : stripPlus cs = ds := by
      rcases hOr with h | h
      · rw [h]
        cases ds with
        | nil => rfl
        | cons d rest =>
          have hd : d.isDigit := hdig d (by simp)
          have : d ≠ '+' := by
            intro hplus; rw [hplus] at hd; exact absurd hd (by decide)
          simp [stripPlus, this]
      · rw [h]; simp [stripPlus]
    have hempty : (stripPlus cs).isEmpty = false := by
      rw [hstrip]; cases ds with
      | nil => exact absurd rfl hne
      | cons d rest => rfl
    have hall : (stripPlus cs).all Char.isDigit = true := by
      rw [hstrip]; exact List.all_eq_true.2 hdig
    unfold parseU64
    rw [hstrip]
    rw [hstrip] at hempty hall
    have hfold := foldl_digits ds 0
    simp only [zero_mul, zero_add] at hfold
    simp only [hempty, Bool.false_eq_true, if_false, hall, if_true, hfold, ← hn, hlt]

/-- C7 counterexample: the all-digits content `"18446744073709551616"` (2⁶⁴,
one past `u64::MAX`) is rejected by `as_number`, and `"+5"` is accepted even
though its trimmed content is not entirely digits. -/
theorem c7_as_number_counterexample :
    (Cell.new "18446744073709551616").as_number = none
    ∧ trimChars (Cell.new "18446744073709551616").content.data ≠ []
    ∧ (∀ d ∈ trimChars (Cell.new "18446744073709551616").content.data, d.isDigit)
    ∧ (Cell.new "+5").as_number = some 5
    ∧ ¬(∀ d ∈ trimChars (Cell.new "+5").content.data, d.isDigit) := by
  refine ⟨by decide, by decide, by decide, by decide, by decide⟩

/-- C7 amended: `as_number` returns `some n` exactly when the trimmed content
is an optional leading `+` followed by one or more digits whose decimal value
`n` fits in `u64` (is below 2⁶⁴); any other content, including overflowing
digit strings, yields `none` rather than an error. -/
theorem c7_as_number_amended (c : Cell) (n : ℕ) :
    c.as_number = some n ↔
      ∃ ds : List Char,
        (trimChars c.content.data = ds ∨ trimChars c.content.data = '+' :: ds)
        ∧ ds ≠ [] ∧ (∀ d ∈ ds, d.isDigit) ∧ n = decValue ds ∧ n < 2 ^ 64 :=
  parseU64_eq_some (trimChars c.content.data) n

/-- Witness for C7's amended statement: `" +5 "` parses to `5`. -/
theorem c7_as_number_witness : (Cell.new " +5 ").as_number = some 5 :=
  (c7_as_number_amended (Cell.new " +5 ") 5).2
    ⟨['5'], Or.inr (by decide), by decide, by decide, by decide, by decide⟩

/-! ## Column width computation (C5) -/

theorem updWidths_getD (visW : String → ℕ) : ∀ (ss : List String) (ws : List ℕ) (j : ℕ),
    (updWidths visW ws ss).getD j 0 = max (ws.getD j 0) ((ss.get? j).elim 0 visW) := by
  intro ss
  induction ss with
  | nil =>
    intro ws j
    cases ws <;> simp [updWidths]
  | cons s ss ih =>
    intro ws j
    cases ws with
    | nil =>
      cases j with
      | zero => simp [updWidths]
      | succ j => simpa [updWidths] using ih [] j
    | cons w ws =>
      cases j with
      | zero => simp [updWidths]
      | succ j => simpa [updWidths] using ih ws j

theorem calcFold_getD (visW : String → ℕ) : ∀ (rows : List Row) (ws : List ℕ) (j : ℕ),
    ((rows.foldl (fun a r => updWidths visW a (r.cells.map Cell.content)) ws)).getD j 0
      = max (ws.getD j 0)
        (rows.foldr (fun r acc =>
          match r.cells.get? j with
          | some c => max (visW c.content) acc
          | none => acc) 0) := by
  intro rows
  induction rows with
  | nil => intro ws j; simp
  | cons r rows ih =>
    intro ws j
    simp only [List.foldl_cons, List.foldr_cons]
    rw [ih, updWidths_getD]
    have hm : (r.cells.map Cell.content).get? j = (r.cells.get? j).map Cell.content := by
      simp [List.get?_eq_getElem?, List.getElem?_map]
    rw [hm]
    cases h : r.cells.get? j with
    | none => simp
    | some c => simp [Nat.max_assoc]

/-- C5 counterexample: with `no_header = true` and a heading wider than every
cell, `calc_cell_widths` still counts the hidden heading (`"Heading"`, width
7), while the claim's "counted only if headers are shown" computation yields
the cell width 1. -/
theorem c5_hidden_heading_counterexample :
    tHiddenHeading.calc_cell_widths asciiW = [7]
    ∧ claimWidths asciiW tHiddenHeading = [1]
    ∧ tHiddenHeading.calc_cell_widths asciiW ≠ claimWidths asciiW tHiddenHeading := by
  refine ⟨by decide, by decide, by decide⟩

/-- C5 amended: for a well-formed table, `calc_cell_widths` yields, at each
column index, the maximum of the visible width of that column's heading (when
one exists — counted whether or not headers are shown) and the visible widths
of every row's cell in that column; each column's width depends only on that
column's entries. -/
theorem c5_calc_widths_amended (visW : String → ℕ) (t : Table) (_hwf : t.wf) (j : ℕ) :
    (t.calc_cell_widths visW).getD j 0 = colWidthSpec visW t j := by
  unfold Table.calc_cell_widths colWidthSpec
  rw [calcFold_getD, updWidths_getD]
  simp

/-- Witness for C5's amended statement at the hidden-heading table. -/
theorem c5_calc_widths_witness :
    (tHiddenHeading.calc_cell_widths asciiW).getD 0 0 = colWidthSpec asciiW tHiddenHeading 0 :=
  c5_calc_widths_amended asciiW tHiddenHeading
    (by intro r hr; simp only [tHiddenHeading] at hr; rw [List.mem_singleton.1 hr]; rfl) 0

/-! ## Rendering (C8, C9) -/

theorem updWidths_length (visW : String → ℕ) : ∀ (ss : List String) (ws : List ℕ),
    (updWidths visW ws ss).length = max ws.length ss.length := by
  intro ss
  induction ss with
  | nil => intro ws; cases ws <;> simp [updWidths]
  | cons s ss ih =>
    intro ws
    cases ws with
    | nil => simp [updWidths, ih]
    | cons w ws => simp [updWidths, ih, Nat.succ_max_succ]

theorem calcFold_length_ge (visW : String → ℕ) : ∀ (rows : List Row) (ws : List ℕ),
    ws.length ≤ (rows.foldl (fun a r => updWidths visW a (r.cells.map Cell.content)) ws).length := by
  intro rows
  induction rows with
  | nil => intro ws; simp
  | cons r rows ih =>
    intro ws
    simp only [List.foldl_cons]
    have h1 : ws.length ≤ (updWidths visW ws (r.cells.map Cell.content)).length := by
      rw [updWidths_length]
      exact le_max_left _ _
    exact le_trans h1 (ih _)

theorem calc_length_ge_headings (visW : String → ℕ) (t : Table) :
    t.headings.length ≤ (t.calc_cell_widths visW).length := by
  unfold Table.calc_cell_widths
  refine le_trans ?_ (calcFold_length_ge visW t.rows _)
  rw [updWidths_length]
  simp

/-- C9 counterexample: a table whose only computed column width is zero (one
row with an empty cell, no headings) renders to `" \n-\n"`, not to the empty
string. -/
theorem c9_empty_render_counterexample :
    (∀ x ∈ tZeroWidth.calc_cell_widths asciiW, x = 0)
    ∧ tZeroWidth.render noColorize asciiW = " \n-\n"
    ∧ tZeroWidth.render noColorize asciiW ≠ "" := by
  refine ⟨by decide, by decide, by decide⟩

/-- C9 amended: a table with no headings and no rows (so that the computed
width vector itself is empty) renders to the empty string — no rules, no other
output.  A table may have all-zero column widths and still render output. -/
theorem c9_empty_render_amended (colorize : CtColor → String → String) (visW : String → ℕ)
    (t : Table) (hh : t.headings = []) (hr : t.rows = []) :
    t.render colorize visW = "" := by
  unfold Table.render
  have hc : t.calc_cell_widths visW = [] := by
    unfold Table.calc_cell_widths
    rw [hh, hr]
    rfl
  rw [hc]
  rfl

/-- Witness for C9's amended statement: the empty table renders to `""`. -/
theorem c9_empty_render_witness : tEmpty.render noColorize asciiW = "" :=
  c9_empty_render_amended noColorize asciiW tEmpty rfl rfl

/-- C8 counterexample: a table with a title set and headers not suppressed but
with an empty `headings` list renders without the title line (the title block
is guarded by `!headings.is_empty()` as well). -/
theorem c8_title_counterexample :
    tTitleNoHeadings.title = some "T"
    ∧ tTitleNoHeadings.no_header = false
    ∧ tTitleNoHeadings.render noColorize asciiW = "x \n--\n"
    ∧ ("T\n".data.isPrefixOf (tTitleNoHeadings.render noColorize asciiW).data) = false := by
  refine ⟨rfl, rfl, by decide, by decide⟩

/-- C8 amended: the rendered output begins with the title line exactly when a
title is set, headers are not suppressed, **and** the headings list is
nonempty; the title line is followed by a horizontal rule of `'-'` characters
whose length is the sum of the computed column widths plus the column count.
In every other case the output is identical to that of the same table without
a title. -/
theorem c8_title_amended (colorize : CtColor → String → String) (visW : String → ℕ)
    (t : Table) :
    (∀ ti : String, t.title = some ti → t.no_header = false → t.headings ≠ [] →
      ∃ rest : String,
        t.render colorize visW
          = ti ++ "\n" ++ ruleStr (adjWidths visW (t.calc_cell_widths visW) t.headings) t.columns
            ++ "\n" ++ rest
        ∧ (ruleStr (adjWidths visW (t.calc_cell_widths visW) t.headings) t.columns).length
            = (adjWidths visW (t.calc_cell_widths visW) t.headings).sum + t.columns)
    ∧ ((t.no_header = true ∨ t.title = none ∨ t.headings = []) →
        t.render colorize visW = Table.render colorize visW { t with title := none }) := by
  constructor
  · intro ti hti hnh hhead
    have hlen : 1 ≤ (t.calc_cell_widths visW).length := by
      have := calc_length_ge_headings visW t
      have hpos : 0 < t.headings.length := List.length_pos.2 hhead
      omega
    have hne : (t.calc_cell_widths visW).isEmpty = false := by
      cases hcw : t.calc_cell_widths visW with
      | nil => rw [hcw] at hlen; simp at hlen
      | cons a l => rfl
    have hhe : t.headings.isEmpty = false := by
      cases hh : t.headings with
      | nil => exact absurd hh hhead
      | cons a l => rfl
    refine ⟨String.join (t.headings.enum.map
        (fun ih => padCell ih.2 ((adjWidths visW (t.calc_cell_widths visW) t.headings).getD ih.1 0)))
        ++ "\n" ++ ruleStr (adjWidths visW (t.calc_cell_widths visW) t.headings) t.columns ++ "\n"
        ++ String.join (t.rows.map (renderRow colorize (adjWidths visW (t.calc_cell_widths visW) t.headings)))
        ++ ruleStr (adjWidths visW (t.calc_cell_widths visW) t.headings) t.columns ++ "\n", ?_, ?_⟩
    · unfold Table.render
      simp only [hne, hhe, hnh, hti, Bool.false_eq_true, if_false, not_false_eq_true, and_self,
        if_true]
      simp [String.append_assoc]
    · unfold ruleStr
      simp
  · intro h
    have hmk : ∀ (ti : Option String) (hs : List String) (cols : ℕ) (rows : List Row)
        (sp : Option Char) (sb : Option ℕ) (rv nh : Bool),
        Table.calc_cell_widths visW ⟨ti, hs, cols, rows, sp, sb, rv, nh⟩
          = rows.foldl (fun a r => updWidths visW a (r.cells.map Cell.content))
              (updWidths visW [] hs) := fun _ _ _ _ _ _ _ _ => rfl
    obtain ⟨tti, ths, tcols, trows, tsp, tsb, trv, tnh⟩ := t
    rcases h with h | h | h
    · replace h : tnh = true := h
      subst h
      unfold Table.render
      simp [hmk]
    · replace h : tti = none := h
      subst h
      rfl
    · replace h : ths = [] := h
      subst h
      unfold Table.render
      simp [hmk]

/-- Witness for C8's amended statement at a titled table with one heading. -/
theorem c8_title_witness :
    ∃ rest : String,
      tTitled.render noColorize asciiW
        = "T" ++ "\n"
          ++ ruleStr (adjWidths asciiW (tTitled.calc_cell_widths asciiW) tTitled.headings)
              tTitled.columns ++ "\n" ++ rest
      ∧ (ruleStr (adjWidths asciiW (tTitled.calc_cell_widths asciiW) tTitled.headings)
            tTitled.columns).length
          = (adjWidths asciiW (tTitled.calc_cell_widths asciiW) tTitled.headings).sum
            + tTitled.columns :=
  (c8_title_amended noColorize asciiW tTitled).1 "T" rfl rfl (by decide)

/-! ## The binary64 model: basic lemmas -/

theorem lg2F_zero (n : ℕ) : lg2F 0 n = 0 := rfl

theorem lg2F_succ (fuel n : ℕ) :
    lg2F (fuel + 1) n = if n ≤ 1 then 0 else lg2F fuel (n / 2) + 1 := rfl

theorem lg2F_spec : ∀ (fuel n : ℕ), 1 ≤ n → n ≤ 2 ^ fuel →
    2 ^ lg2F fuel n ≤ n ∧ n < 2 ^ (lg2F fuel n + 1) := by
  intro fuel
  induction fuel with
  | zero =>
    intro n h1 h2
    rw [lg2F_zero]
    simp at h2 ⊢
    omega
  | succ fuel ih =>
    intro n h1 h2
    rw [lg2F_succ]
    by_cases hn : n ≤ 1
    · rw [if_pos hn]
      simp
      omega
    · rw [if_neg hn]
      have h2' : n / 2 ≤ 2 ^ fuel := by
        rw [pow_succ] at h2
        omega
      have h1' : 1 ≤ n / 2 := by omega
      obtain ⟨ha, hb⟩ := ih (n / 2) h1' h2'
      have e1 : 2 ^ (lg2F fuel (n / 2) + 1) = 2 ^ lg2F fuel (n / 2) * 2 := pow_succ 2 _
      have e2 : 2 ^ (lg2F fuel (n / 2) + 1 + 1) = 2 ^ (lg2F fuel (n / 2) + 1) * 2 := pow_succ 2 _
      omega

theorem natLg2_spec (n : ℕ) (h : 1 ≤ n) :
    2 ^ natLg2 n ≤ n ∧ n < 2 ^ (natLg2 n + 1) :=
  lg2F_spec n n h (Nat.le_of_lt (Nat.lt_two_pow n))

theorem natClg2_spec (n : ℕ) (h : 1 ≤ n) :
    n ≤ 2 ^ natClg2 n ∧ (2 ≤ n → 2 ^ (natClg2 n - 1) < n) := by
  unfold natClg2
  by_cases hn : n ≤ 1
  · rw [if_pos hn]
    constructor
    · simpa using hn
    · omega
  · rw [if_neg hn]
    obtain ⟨ha, hb⟩ := natLg2_spec (n - 1) (by omega)
    constructor
    · omega
    · intro _
      simpa using Nat.lt_of_le_of_lt ha (by omega)

theorem pow2_eq_zpow (e : ℤ) : pow2 e = (2 : ℚ) ^ e := by
  unfold pow2
  by_cases h : 0 ≤ e
  · rw [if_pos h]
    push_cast
    rw [← zpow_natCast, Int.toNat_of_nonneg h]
  · rw [if_neg h]
    push_cast
    rw [← zpow_natCast, Int.toNat_of_nonneg (by omega : (0:ℤ) ≤ -e), ← zpow_neg, neg_neg]

theorem pow2_pos (e : ℤ) : 0 < pow2 e := by
  rw [pow2_eq_zpow]
  exact zpow_pos (by norm_num) e

theorem pow2_ne_zero (e : ℤ) : pow2 e ≠ 0 := ne_of_gt (pow2_pos e)

theorem pow2_add (a b : ℤ) : pow2 (a + b) = pow2 a * pow2 b := by
  rw [pow2_eq_zpow, pow2_eq_zpow, pow2_eq_zpow]
  exact zpow_add₀ (by norm_num) a b

theorem pow2_le_pow2 {a b : ℤ} (h : a ≤ b) : pow2 a ≤ pow2 b := by
  rw [pow2_eq_zpow, pow2_eq_zpow]
  exact (zpow_le_zpow_iff_right₀ (by norm_num)).2 h

theorem pow2_lt_pow2 {a b : ℤ} (h : pow2 a < pow2 b) : a < b := by
  rw [pow2_eq_zpow, pow2_eq_zpow] at h
  by_contra hab
  exact absurd ((zpow_le_zpow_iff_right₀ (by norm_num : (1:ℚ) < 2)).2 (by omega : b ≤ a)) (not_le.2 h)

theorem le_rne (q : ℚ) : ⌊q⌋ ≤ rne q := by
  unfold rne
  split_ifs <;> omega

theorem rne_le (q : ℚ) : rne q ≤ ⌊q⌋ + 1 := by
  unfold rne
  split_ifs <;> omega

theorem rne_intCast (n : ℤ) : rne (n : ℚ) = n := by
  unfold rne
  rw [Int.floor_intCast, sub_self]
  norm_num

theorem rne_nonneg (q : ℚ) (h : 0 ≤ q) : 0 ≤ rne q := by
  have h1 := le_rne q
  have h2 : 0 ≤ ⌊q⌋ := Int.floor_nonneg.2 h
  omega

theorem rne_mono {a b : ℚ} (h : a ≤ b) : rne a ≤ rne b := by
  have hfab : ⌊a⌋ ≤ ⌊b⌋ := Int.floor_le_floor h
  rcases lt_or_eq_of_le hfab with hlt | heq
  · have h1 := rne_le a
    have h2 := le_rne b
    omega
  · have hfrac : a - ⌊a⌋ ≤ b - ⌊b⌋ := by
      rw [heq]
      exact sub_le_sub_right h _
    unfold rne
    split_ifs <;> first | omega | (exfalso; linarith)

theorem pow2_natCast (k : ℕ) : pow2 (k : ℤ) = ((2 ^ k : ℕ) : ℚ) := by
  rw [pow2_eq_zpow]
  push_cast
  rw [zpow_natCast]

theorem pow2_toNat (d : ℤ) (hd : 0 ≤ d) : pow2 d = ((2 ^ d.toNat : ℕ) : ℚ) := by
  unfold pow2
  rw [if_pos hd]

theorem qExp_spec (q : ℚ) (hq : 0 < q) : pow2 (qExp q) ≤ q ∧ q < pow2 (qExp q + 1) := by
  unfold qExp
  by_cases h1 : 1 ≤ q
  · rw [if_pos h1]
    have hf1 : 1 ≤ ⌊q⌋ := Int.le_floor.2 (by exact_mod_cast h1)
    have hn1 : 1 ≤ ⌊q⌋.toNat := by omega
    obtain ⟨ha, hb⟩ := natLg2_spec ⌊q⌋.toNat hn1
    have hfn : ((⌊q⌋.toNat : ℕ) : ℚ) = (⌊q⌋ : ℚ) := by
      have : ((⌊q⌋.toNat : ℕ) : ℤ) = ⌊q⌋ := by omega
      exact_mod_cast congrArg (fun z : ℤ => (z : ℚ)) this
    constructor
    · rw [pow2_natCast]
      calc ((2 ^ natLg2 ⌊q⌋.toNat : ℕ) : ℚ) ≤ ((⌊q⌋.toNat : ℕ) : ℚ) := by exact_mod_cast ha
        _ = (⌊q⌋ : ℚ) := hfn
        _ ≤ q := Int.floor_le q
    · have hcast : ((natLg2 ⌊q⌋.toNat : ℕ) : ℤ) + 1 = ((natLg2 ⌊q⌋.toNat + 1 : ℕ) : ℤ) := by
        push_cast
        ring
      rw [hcast, pow2_natCast]
      calc q < (⌊q⌋ : ℚ) + 1 := Int.lt_floor_add_one q
        _ = ((⌊q⌋.toNat : ℕ) : ℚ) + 1 := by rw [hfn]
        _ ≤ ((2 ^ (natLg2 ⌊q⌋.toNat + 1) : ℕ) : ℚ) := by exact_mod_cast hb
  · rw [if_neg h1]
    push_neg at h1
    have hnum : 0 < q.num := Rat.num_pos.2 hq
    have hN1 : 1 ≤ q.num.toNat := by omega
    have hD1 : 0 < q.den := q.den_pos
    have hNQ : ((q.num.toNat : ℕ) : ℚ) = (q.num : ℚ) := by
      have : ((q.num.toNat : ℕ) : ℤ) = q.num := by omega
      exact_mod_cast congrArg (fun z : ℤ => (z : ℚ)) this
    have hq_eq : q = ((q.num.toNat : ℕ) : ℚ) / ((q.den : ℕ) : ℚ) := by
      rw [hNQ, Rat.num_div_den q]
    have hND : q.num.toNat < q.den := by
      have hlt : ((q.num.toNat : ℕ) : ℚ) < ((q.den : ℕ) : ℚ) := by
        have := (div_lt_one (by positivity : (0:ℚ) < ((q.den : ℕ) : ℚ))).1 (hq_eq ▸ h1)
        exact this
      exact_mod_cast hlt
    have hDle : q.den ≤ q.num.toNat * ((q.den + q.num.toNat - 1) / q.num.toNat) := by
      have hmod := Nat.div_add_mod (q.den + q.num.toNat - 1) q.num.toNat
      have hr : (q.den + q.num.toNat - 1) % q.num.toNat < q.num.toNat :=
        Nat.mod_lt _ (by omega)
      omega
    have hm2 : 2 ≤ (q.den + q.num.toNat - 1) / q.num.toNat := by
      rw [Nat.le_div_iff_mul_le (by omega : 0 < q.num.toNat)]
      omega
    have hlow : q.num.toNat * ((q.den + q.num.toNat - 1) / q.num.toNat - 1) < q.den := by
      have hds : q.num.toNat * ((q.den + q.num.toNat - 1) / q.num.toNat)
          ≤ q.den + q.num.toNat - 1 := by
        rw [Nat.mul_comm]
        exact Nat.div_mul_le_self _ _
      have hsplit : (q.den + q.num.toNat - 1) / q.num.toNat
          = ((q.den + q.num.toNat - 1) / q.num.toNat - 1) + 1 := by omega
      rw [hsplit, Nat.mul_succ] at hds
      omega
    obtain ⟨hc1, hc2⟩ := natClg2_spec ((q.den + q.num.toNat - 1) / q.num.toNat) (by omega)
    have hc2' := hc2 hm2
    have hk1 : 1 ≤ natClg2 ((q.den + q.num.toNat - 1) / q.num.toNat) := by
      by_contra h0
      push_neg at h0
      have hz : natClg2 ((q.den + q.num.toNat - 1) / q.num.toNat) = 0 := by omega
      rw [hz] at hc1
      simp at hc1
      omega
    obtain ⟨k, hkdef⟩ : ∃ k, natClg2 ((q.den + q.num.toNat - 1) / q.num.toNat) = k := ⟨_, rfl⟩
    rw [hkdef] at hc1 hc2' hk1
    rw [hkdef]
    constructor
    · have hpow : pow2 (-(k : ℤ)) = 1 / ((2 ^ k : ℕ) : ℚ) := by
        rw [pow2_eq_zpow, zpow_neg, ← pow2_eq_zpow, pow2_natCast, inv_eq_one_div]
      rw [hpow, hq_eq, div_le_div_iff (by positivity) (by positivity), one_mul]
      have hfin : q.den ≤ q.num.toNat * 2 ^ k :=
        le_trans hDle (Nat.mul_le_mul_left _ hc1)
      exact_mod_cast hfin
    · have hexp2 : -(k : ℤ) + 1 = -((k - 1 : ℕ) : ℤ) := by omega
      have hpow2' : pow2 (-((k - 1 : ℕ) : ℤ)) = 1 / ((2 ^ (k - 1) : ℕ) : ℚ) := by
        rw [pow2_eq_zpow, zpow_neg, ← pow2_eq_zpow, pow2_natCast, inv_eq_one_div]
      rw [hexp2, hpow2', hq_eq, div_lt_div_iff (by positivity) (by positivity), one_mul]
      have hfin : q.num.toNat * 2 ^ (k - 1) < q.den := by
        have h2m : 2 ^ (k - 1) ≤ (q.den + q.num.toNat - 1) / q.num.toNat - 1 := by omega
        exact Nat.lt_of_le_of_lt (Nat.mul_le_mul_left _ h2m) hlow
      exact_mod_cast hfin

theorem flPos_n_lb (q : ℚ) (hq : 0 < q) : (2 ^ 52 : ℚ) ≤ q / pow2 (qExp q - 52) := by
  obtain ⟨h1, _⟩ := qExp_spec q hq
  rw [le_div_iff (pow2_pos _)]
  have he : (2 ^ 52 : ℚ) * pow2 (qExp q - 52) = pow2 (qExp q) := by
    have h52 : (2 ^ 52 : ℚ) = pow2 (52 : ℤ) := by
      rw [pow2_eq_zpow]
      norm_num
    rw [h52, ← pow2_add]
    congr 1
    ring
  rw [he]
  exact h1

theorem flPos_n_ub (q : ℚ) (hq : 0 < q) : q / pow2 (qExp q - 52) < (2 ^ 53 : ℚ) := by
  obtain ⟨_, h2⟩ := qExp_spec q hq
  rw [div_lt_iff (pow2_pos _)]
  have he : (2 ^ 53 : ℚ) * pow2 (qExp q - 52) = pow2 (qExp q + 1) := by
    have h53 : (2 ^ 53 : ℚ) = pow2 (53 : ℤ) := by
      rw [pow2_eq_zpow]
      norm_num
    rw [h53, ← pow2_add]
    congr 1
    ring
  rw [he]
  exact h2

theorem rne_n_lb (q : ℚ) (hq : 0 < q) : (2 ^ 52 : ℤ) ≤ rne (q / pow2 (qExp q - 52)) := by
  have h := flPos_n_lb q hq
  have : rne (((2 ^ 52 : ℤ) : ℚ)) ≤ rne (q / pow2 (qExp q - 52)) :=
    rne_mono (by exact_mod_cast h)
  rwa [rne_intCast] at this

theorem rne_n_ub (q : ℚ) (hq : 0 < q) : rne (q / pow2 (qExp q - 52)) ≤ 2 ^ 53 := by
  have h := flPos_n_ub q hq
  have h1 := rne_le (q / pow2 (qExp q - 52))
  have h2 : ⌊q / pow2 (qExp q - 52)⌋ < 2 ^ 53 := Int.floor_lt.2 (by exact_mod_cast h)
  omega

theorem fl_zero : fl 0 = 0 := by
  unfold fl
  norm_num

theorem fl_nonneg (q : ℚ) (h : 0 ≤ q) : 0 ≤ fl q := by
  unfold fl
  rcases lt_or_eq_of_le h with h' | h'
  · rw [if_pos h']
    unfold flPos
    have hm := rne_n_lb q h'
    have hp := pow2_pos (qExp q - 52)
    have hm' : (0 : ℚ) ≤ ((rne (q / pow2 (qExp q - 52)) : ℤ) : ℚ) := by
      exact_mod_cast le_trans (by norm_num : (0:ℤ) ≤ 2 ^ 52) hm
    exact mul_nonneg hm' (le_of_lt hp)
  · rw [← h']
    norm_num

theorem flPos_isRep (q : ℚ) (hq : 0 < q) : IsRep (flPos q) := by
  have hub := rne_n_ub q hq
  have hlb := rne_n_lb q hq
  by_cases htop : rne (q / pow2 (qExp q - 52)) = 2 ^ 53
  · refine ⟨2 ^ 52, qExp q - 52 + 1, by decide, ?_⟩
    unfold flPos
    rw [htop, pow2_add]
    have h2 : pow2 1 = 2 := by norm_num [pow2]
    rw [h2]
    push_cast
    ring
  · exact ⟨rne (q / pow2 (qExp q - 52)), qExp q - 52, by omega, rfl⟩

theorem fl_isRep (q : ℚ) : IsRep (fl q) := by
  unfold fl
  by_cases h1 : 0 < q
  · rw [if_pos h1]
    exact flPos_isRep q h1
  · rw [if_neg h1]
    by_cases h2 : q < 0
    · rw [if_pos h2]
      obtain ⟨m, e, hm, heq⟩ := flPos_isRep (-q) (by linarith)
      refine ⟨-m, e, by omega, ?_⟩
      rw [heq]
      push_cast
      ring
    · rw [if_neg h2]
      exact ⟨0, 0, by decide, by simp⟩

theorem flPos_fixed (q : ℚ) (hq : 0 < q) (h : IsRep q) : flPos q = q := by
  obtain ⟨m, e, hm, rfl⟩ := h
  have hp := pow2_pos e
  have hm1 : 1 ≤ m := by
    by_contra hc
    push_neg at hc
    have : (m : ℚ) ≤ 0 := by exact_mod_cast by omega
    nlinarith
  have hmq : (m : ℚ) < 2 ^ 53 := by exact_mod_cast by omega
  obtain ⟨hb1, _⟩ := qExp_spec _ hq
  have hupper : (m : ℚ) * pow2 e < pow2 (53 + e) := by
    rw [pow2_add]
    have h53 : (2 ^ 53 : ℚ) = pow2 (53 : ℤ) := by
      rw [pow2_eq_zpow]
      norm_num
    rw [← h53]
    exact mul_lt_mul_of_pos_right hmq hp
  have hEe : qExp ((m : ℚ) * pow2 e) - 52 ≤ e := by
    have := pow2_lt_pow2 (lt_of_le_of_lt hb1 hupper)
    omega
  obtain ⟨E, hE⟩ : ∃ E, qExp ((m : ℚ) * pow2 e) = E := ⟨_, rfl⟩
  rw [hE] at hEe
  have hsplit : pow2 e = pow2 (e - (E - 52)) * pow2 (E - 52) := by
    rw [← pow2_add]
    congr 1
    ring
  have hdiv : (m : ℚ) * pow2 e / pow2 (E - 52) = (m : ℚ) * pow2 (e - (E - 52)) := by
    rw [hsplit, ← mul_assoc, mul_div_assoc, div_self (pow2_ne_zero _), mul_one]
  have hint : (m : ℚ) * pow2 (e - (E - 52)) = ((m * 2 ^ (e - (E - 52)).toNat : ℤ) : ℚ) := by
    rw [pow2_toNat _ (by omega : (0:ℤ) ≤ e - (E - 52))]
    push_cast
    ring
  unfold flPos
  rw [hE, hdiv, hint, rne_intCast, ← hint, mul_assoc, ← pow2_add]
  congr 1
  ring

theorem fl_fixed (q : ℚ) (h : IsRep q) : fl q = q := by
  unfold fl
  by_cases h1 : 0 < q
  · rw [if_pos h1]
    exact flPos_fixed q h1 h
  · rw [if_neg h1]
    by_cases h2 : q < 0
    · rw [if_pos h2]
      obtain ⟨m, e, hm, heq⟩ := h
      have hneg : -q = ((-m : ℤ) : ℚ) * pow2 e := by
        rw [heq]
        push_cast
        ring
      rw [flPos_fixed (-q) (by linarith) ⟨-m, e, by omega, hneg⟩]
      ring
    · rw [if_neg h2]
      linarith

theorem qExp_mono {a b : ℚ} (ha : 0 < a) (h : a ≤ b) : qExp a ≤ qExp b := by
  obtain ⟨ha1, _⟩ := qExp_spec a ha
  obtain ⟨_, hb2⟩ := qExp_spec b (lt_of_lt_of_le ha h)
  have := pow2_lt_pow2 (lt_of_le_of_lt (le_trans ha1 h) hb2)
  omega

theorem flPos_mono {a b : ℚ} (ha : 0 < a) (hab : a ≤ b) : flPos a ≤ flPos b := by
  have hb : 0 < b := lt_of_lt_of_le ha hab
  have hE := qExp_mono ha hab
  rcases lt_or_eq_of_le hE with hlt | heq
  · have h1 : flPos a ≤ pow2 (qExp a + 1) := by
      unfold flPos
      have hub := rne_n_ub a ha
      have h53 : (2 ^ 53 : ℚ) = pow2 (53 : ℤ) := by
        rw [pow2_eq_zpow]
        norm_num
      calc ((rne (a / pow2 (qExp a - 52)) : ℤ) : ℚ) * pow2 (qExp a - 52)
          ≤ (2 ^ 53 : ℚ) * pow2 (qExp a - 52) := by
            have : ((rne (a / pow2 (qExp a - 52)) : ℤ) : ℚ) ≤ (2 ^ 53 : ℚ) := by
              exact_mod_cast hub
            exact mul_le_mul_of_nonneg_right this (le_of_lt (pow2_pos _))
        _ = pow2 (qExp a + 1) := by
            rw [h53, ← pow2_add]
            congr 1
            ring
    have h2 : pow2 (qExp b) ≤ flPos b := by
      unfold flPos
      have hlb := rne_n_lb b hb
      have h52 : (2 ^ 52 : ℚ) = pow2 (52 : ℤ) := by
        rw [pow2_eq_zpow]
        norm_num
      calc pow2 (qExp b) = (2 ^ 52 : ℚ) * pow2 (qExp b - 52) := by
            rw [h52, ← pow2_add]
            congr 1
            ring
        _ ≤ ((rne (b / pow2 (qExp b - 52)) : ℤ) : ℚ) * pow2 (qExp b - 52) := by
            have : (2 ^ 52 : ℚ) ≤ ((rne (b / pow2 (qExp b - 52)) : ℤ) : ℚ) := by
              exact_mod_cast hlb
            exact mul_le_mul_of_nonneg_right this (le_of_lt (pow2_pos _))
    exact le_trans h1 (le_trans (pow2_le_pow2 (by omega)) h2)
  · unfold flPos
    rw [← heq]
    have hdiv : a / pow2 (qExp a - 52) ≤ b / pow2 (qExp a - 52) :=
      (div_le_div_right (pow2_pos _)).2 hab
    have hr := rne_mono hdiv
    have : ((rne (a / pow2 (qExp a - 52)) : ℤ) : ℚ)
        ≤ ((rne (b / pow2 (qExp a - 52)) : ℤ) : ℚ) := by exact_mod_cast hr
    exact mul_le_mul_of_nonneg_right this (le_of_lt (pow2_pos _))

theorem fl_mono {a b : ℚ} (ha : 0 ≤ a) (hab : a ≤ b) : fl a ≤ fl b := by
  rcases lt_or_eq_of_le ha with ha' | ha'
  · unfold fl
    rw [if_pos ha', if_pos (lt_of_lt_of_le ha' hab)]
    exact flPos_mono ha' hab
  · rw [← ha', fl_zero]
    exact fl_nonneg b (le_trans ha hab)

theorem frac_div_eq (M P : ℕ) (hP : 0 < P) :
    ((M : ℕ) : ℚ) / ((P : ℕ) : ℚ) - ((M / P : ℕ) : ℚ) = ((M % P : ℕ) : ℚ) / ((P : ℕ) : ℚ) := by
  have hd := Nat.div_add_mod M P
  have hQ : ((M : ℕ) : ℚ) = ((P : ℕ) : ℚ) * ((M / P : ℕ) : ℚ) + ((M % P : ℕ) : ℚ) := by
    exact_mod_cast congrArg (fun n : ℕ => (n : ℚ)) hd.symm
  have hP' : ((P : ℕ) : ℚ) ≠ 0 := by positivity
  rw [hQ]
  field_simp

theorem isRep_floor_frac (q : ℚ) (h : IsRep q) (h0 : 0 ≤ q) :
    IsRep ((⌊q⌋ : ℚ)) ∧ IsRep (q - ⌊q⌋) := by
  obtain ⟨m, e, hm, rfl⟩ := h
  have hp := pow2_pos e
  have hm0 : 0 ≤ m := by
    by_contra hneg
    push_neg at hneg
    have : (m : ℚ) < 0 := by exact_mod_cast hneg
    nlinarith
  by_cases he : 0 ≤ e
  · have hq_int : ((m : ℚ) * pow2 e) = ((m * 2 ^ e.toNat : ℤ) : ℚ) := by
      rw [pow2_toNat _ he]
      push_cast
      ring
    rw [hq_int, Int.floor_intCast]
    refine ⟨⟨m, e, hm, hq_int.symm⟩, ?_⟩
    rw [sub_self]
    exact ⟨0, 0, by decide, by simp⟩
  · push_neg at he
    have hk1 : 1 ≤ (-e).toNat := by omega
    have hpe : pow2 e = (((2 ^ (-e).toNat : ℕ) : ℚ))⁻¹ := by
      unfold pow2
      rw [if_neg (by omega)]
    by_cases hk53 : 53 ≤ (-e).toNat
    · have hlt1 : (m : ℚ) * pow2 e < 1 := by
        have hmq : (m : ℚ) < (2 ^ 53 : ℚ) := by exact_mod_cast (by omega : m < 2 ^ 53)
        have hpow : pow2 e ≤ pow2 (-53) := pow2_le_pow2 (by omega)
        have h53 : (2 ^ 53 : ℚ) = pow2 (53 : ℤ) := by
          rw [pow2_eq_zpow]
          norm_num
        calc (m : ℚ) * pow2 e < 2 ^ 53 * pow2 e := mul_lt_mul_of_pos_right hmq hp
          _ ≤ 2 ^ 53 * pow2 (-53) := mul_le_mul_of_nonneg_left hpow (by norm_num)
          _ = 1 := by
              rw [h53, ← pow2_add]
              norm_num [pow2]
      have hfl0 : ⌊(m : ℚ) * pow2 e⌋ = 0 := Int.floor_eq_zero_iff.2 ⟨h0, hlt1⟩
      rw [hfl0]
      constructor
      · exact ⟨0, 0, by decide, by simp⟩
      · rw [Int.cast_zero, sub_zero]
        exact ⟨m, e, hm, rfl⟩
    · push_neg at hk53
      have hqM : (m : ℚ) * pow2 e = ((m.toNat : ℕ) : ℚ) / ((2 ^ (-e).toNat : ℕ) : ℚ) := by
        rw [hpe, div_eq_mul_inv]
        congr 2
        exact_mod_cast (Int.toNat_of_nonneg hm0).symm
      have hdm := Nat.div_add_mod m.toNat (2 ^ (-e).toNat)
      have hr : m.toNat % 2 ^ (-e).toNat < 2 ^ (-e).toNat := Nat.mod_lt _ (by positivity)
      have hfl : ⌊(m : ℚ) * pow2 e⌋ = ((m.toNat / 2 ^ (-e).toNat : ℕ) : ℤ) := by
        rw [hqM, Int.floor_eq_iff]
        constructor
        · rw [le_div_iff (by positivity)]
          have := Nat.div_mul_le_self m.toNat (2 ^ (-e).toNat)
          exact_mod_cast this
        · rw [div_lt_iff (by positivity)]
          have hnat : m.toNat < (m.toNat / 2 ^ (-e).toNat + 1) * 2 ^ (-e).toNat := by
            rw [Nat.add_mul, one_mul, Nat.mul_comm]
            omega
          exact_mod_cast hnat
      rw [hfl]
      constructor
      · refine ⟨((m.toNat / 2 ^ (-e).toNat : ℕ) : ℤ), 0, ?_, ?_⟩
        · have h1 : m.toNat / 2 ^ (-e).toNat ≤ m.toNat := Nat.div_le_self _ _
          have h2 : m.toNat < 2 ^ 53 := by omega
          simp only [Int.natAbs_ofNat]
          omega
        · have hp0 : pow2 0 = 1 := by norm_num [pow2]
          rw [hp0, mul_one]
      · refine ⟨((m.toNat % 2 ^ (-e).toNat : ℕ) : ℤ), e, ?_, ?_⟩
        · have h2 : m.toNat % 2 ^ (-e).toNat < 2 ^ 53 :=
            lt_of_lt_of_le hr (Nat.pow_le_pow_right (by norm_num) (by omega))
          simp only [Int.natAbs_ofNat]
          omega
        · rw [hqM, hpe]
          simp only [Int.cast_natCast]
          rw [← div_eq_mul_inv]
          exact frac_div_eq m.toNat (2 ^ (-e).toNat) (by positivity)

theorem pow2_zero : pow2 0 = 1 := by norm_num [pow2]

theorem gbRem_le (p w : ℕ) (hp : p ≤ 100) (hw : w < 2 ^ 64) : gbRem p w ≤ 10 := by
  have hrp : IsRep ((p : ℕ) : ℚ) := by
    refine ⟨(p : ℤ), 0, by omega, ?_⟩
    rw [pow2_zero, mul_one]
    push_cast
    ring
  have hflp : fl ((p : ℕ) : ℚ) = ((p : ℕ) : ℚ) := fl_fixed _ hrp
  have hfl1 : fl 1 = 1 := fl_fixed _ ⟨1, 0, by decide, by rw [pow2_zero]; norm_num⟩
  have hfl64 : fl ((2 ^ 64 : ℚ)) = (2 ^ 64 : ℚ) := by
    refine fl_fixed _ ⟨1, 64, by decide, ?_⟩
    rw [pow2_eq_zpow]
    norm_num
  have ht2l : (0 : ℚ) ≤ fl (((p : ℕ) : ℚ) / 100) := fl_nonneg _ (by positivity)
  have ht2u : fl (((p : ℕ) : ℚ) / 100) ≤ 1 := by
    have hd : ((p : ℕ) : ℚ) / 100 ≤ 1 := by
      rw [div_le_one (by norm_num)]
      exact_mod_cast hp
    calc fl (((p : ℕ) : ℚ) / 100) ≤ fl 1 := fl_mono (by positivity) hd
      _ = 1 := hfl1
  have hwle : ((w : ℕ) : ℚ) ≤ (2 ^ 64 : ℚ) := by
    have : (w : ℕ) ≤ 2 ^ 64 := le_of_lt hw
    exact_mod_cast this
  have hfwl : (0 : ℚ) ≤ fl ((w : ℕ) : ℚ) := fl_nonneg _ (by positivity)
  have hfwu : fl ((w : ℕ) : ℚ) ≤ (2 ^ 64 : ℚ) := by
    calc fl ((w : ℕ) : ℚ) ≤ fl ((2 ^ 64 : ℚ)) := fl_mono (by positivity) hwle
      _ = _ := hfl64
  have hprodl : (0 : ℚ) ≤ fl (((p : ℕ) : ℚ) / 100) * fl ((w : ℕ) : ℚ) := mul_nonneg ht2l hfwl
  have hprodu : fl (((p : ℕ) : ℚ) / 100) * fl ((w : ℕ) : ℚ) ≤ (2 ^ 64 : ℚ) := by
    calc fl (((p : ℕ) : ℚ) / 100) * fl ((w : ℕ) : ℚ)
        ≤ 1 * (2 ^ 64 : ℚ) := mul_le_mul ht2u hfwu hfwl (by norm_num)
      _ = _ := one_mul _
  have hsc_eq : gbScaled p w = fl (fl (((p : ℕ) : ℚ) / 100) * fl ((w : ℕ) : ℚ)) := by
    unfold gbScaled
    rw [hflp]
  have hscl : (0 : ℚ) ≤ gbScaled p w := by
    rw [hsc_eq]
    exact fl_nonneg _ hprodl
  have hscu : gbScaled p w ≤ (2 ^ 64 : ℚ) := by
    rw [hsc_eq]
    calc fl _ ≤ fl ((2 ^ 64 : ℚ)) := fl_mono hprodl hprodu
      _ = _ := hfl64
  have hscRep : IsRep (gbScaled p w) := by
    rw [hsc_eq]
    exact fl_isRep _
  by_cases htop : gbScaled p w = (2 ^ 64 : ℚ)
  · have hfloor : ⌊gbScaled p w⌋ = 2 ^ 64 := by
      rw [htop]
      have : (2 ^ 64 : ℚ) = ((2 ^ 64 : ℤ) : ℚ) := by push_cast; ring
      rw [this, Int.floor_intCast]
    have hfull : gbFull p w = 2 ^ 64 - 1 := by
      unfold gbFull
      rw [hfloor]
      decide
    have hcast : fl ((gbFull p w : ℕ) : ℚ) = (2 ^ 64 : ℚ) := by
      rw [hfull]
      decide
    have hfrac0 : gbFrac p w = 0 := by
      unfold gbFrac
      rw [hcast, htop, sub_self, fl_zero]
    have hrem : gbRem p w = 0 := by
      unfold gbRem
      rw [hfrac0, zero_mul, fl_zero]
      decide
    omega
  · have hsclt : gbScaled p w < (2 ^ 64 : ℚ) := lt_of_le_of_ne hscu htop
    have hfl_lb : 0 ≤ ⌊gbScaled p w⌋ := Int.floor_nonneg.2 hscl
    have hfl_ub : ⌊gbScaled p w⌋ < 2 ^ 64 := by
      apply Int.floor_lt.2
      push_cast
      exact hsclt
    have hfull : gbFull p w = ⌊gbScaled p w⌋.toNat := by
      unfold gbFull
      omega
    have hcast : ((gbFull p w : ℕ) : ℚ) = ((⌊gbScaled p w⌋ : ℤ) : ℚ) := by
      rw [hfull]
      exact_mod_cast congrArg (fun z : ℤ => (z : ℚ)) (Int.toNat_of_nonneg hfl_lb)
    obtain ⟨hRfloor, hRfrac⟩ := isRep_floor_frac _ hscRep hscl
    have hflfloor : fl ((gbFull p w : ℕ) : ℚ) = ((⌊gbScaled p w⌋ : ℤ) : ℚ) := by
      rw [hcast]
      exact fl_fixed _ hRfloor
    have hfrac_eq : gbFrac p w = gbScaled p w - ⌊gbScaled p w⌋ := by
      unfold gbFrac
      rw [hflfloor]
      exact fl_fixed _ hRfrac
    have hfr0 : (0 : ℚ) ≤ gbFrac p w := by
      rw [hfrac_eq, sub_nonneg]
      exact Int.floor_le _
    have hfr1 : gbFrac p w < 1 := by
      rw [hfrac_eq]
      have := Int.lt_floor_add_one (gbScaled p w)
      linarith
    have hfl10 : fl (10 : ℚ) = 10 := fl_fixed _ ⟨10, 0, by decide, by rw [pow2_zero]; norm_num⟩
    have ht4l : (0 : ℚ) ≤ fl (gbFrac p w * 10) := fl_nonneg _ (mul_nonneg hfr0 (by norm_num))
    have ht4u : fl (gbFrac p w * 10) ≤ 10 := by
      calc fl (gbFrac p w * 10) ≤ fl 10 :=
            fl_mono (mul_nonneg hfr0 (by norm_num)) (by nlinarith)
        _ = 10 := hfl10
    unfold gbRem rha
    rw [if_pos ht4l]
    have hfloor10 : ⌊fl (gbFrac p w * 10) + 1 / 2⌋ ≤ 10 := by
      have hle : fl (gbFrac p w * 10) + 1 / 2 ≤ (21 : ℚ) / 2 := by linarith
      calc ⌊fl (gbFrac p w * 10) + 1 / 2⌋ ≤ ⌊(21 : ℚ) / 2⌋ := Int.floor_le_floor hle
        _ = 10 := by decide
    omega

theorem join_foldl_length : ∀ (l : List String) (acc : String),
    (l.foldl (fun a b => a ++ b) acc).length = acc.length + (l.map String.length).sum := by
  intro l
  induction l with
  | nil => intro acc; simp
  | cons s ss ih =>
    intro acc
    simp only [List.foldl_cons, List.map_cons, List.sum_cons, ih (acc ++ s),
      String.length_append]
    omega

theorem strRepeat_length (s : String) (n : ℕ) : (strRepeat s n).length = n * s.length := by
  unfold strRepeat String.join
  rw [join_foldl_length]
  simp [List.map_replicate, List.sum_replicate, smul_eq_mul]

/-- C10: for every percentage up to 100 and every `usize` width, `get_bar`
cannot panic: the tenths remainder lies in `0..=10`, so the `unreachable!()`
arm of the glyph match is never taken and the function returns a string. -/
theorem c10_get_bar_total (p w : ℕ) (hp : p ≤ 100) (hw : w < 2 ^ 64) :
    (get_bar p w).isSome = true ∧ gbRem p w ≤ 10 := by
  have h := gbRem_le p w hp hw
  refine ⟨?_, h⟩
  unfold get_bar
  generalize hg : gbRem p w = r at h ⊢
  interval_cases r <;> rfl

/-- Witness for C10 at the terminal-default bar width. -/
theorem c10_get_bar_total_witness :
    (get_bar 37 56).isSome = true ∧ gbRem 37 56 ≤ 10 :=
  c10_get_bar_total 37 56 (by decide) (by decide)

/-- C3 counterexample: at `(p, w) = (20, 1)` and `(25, 1)` the claim's
eighths remainder is the same (2), yet the code emits different trailing
glyphs (`▎` vs `▍`) — the glyph is chosen by a tenths remainder, not by
eighths. -/
theorem c3_eighths_counterexample :
    specEighths 20 1 = 2 ∧ specEighths 25 1 = 2
    ∧ get_bar 20 1 = some "▎" ∧ get_bar 25 1 = some "▍"
    ∧ ("▎" : String) ≠ "▍" := by
  refine ⟨by decide, by decide, by decide, by decide, by decide⟩

/-- C3 amended: the trailing glyph is chosen by a *tenths* remainder,
`remainder = round((scaled - full) * 10)` computed in `f64`, which always lies
in `0..=10`; remainder 0 still appends the narrowest partial block and
remainder 10 contributes a full block, with the lookup
`{0,1}→▏, 2→▎, {3,4}→▍, {5,6}→▌, 7→▋, 8→▊, 9→▉, 10→█`. -/
theorem c3_tenths_glyph_amended (p w : ℕ) (hp : p ≤ 100) (hw : w < 2 ^ 64) :
    gbRem p w ≤ 10
    ∧ get_bar p w = some (strRepeat "█" (gbFull p w) ++ tenthsGlyphs.getD (gbRem p w) "")
    ∧ tenthsGlyphs.getD 0 "" = "▏" ∧ tenthsGlyphs.getD 10 "" = "█" := by
  have h := gbRem_le p w hp hw
  refine ⟨h, ?_, rfl, rfl⟩
  unfold get_bar
  generalize hg : gbRem p w = r at h ⊢
  interval_cases r <;> rfl

/-- Witness for C3's amended statement at `(p, w) = (25, 1)`. -/
theorem c3_tenths_glyph_witness :
    get_bar 25 1 = some (strRepeat "█" (gbFull 25 1) ++ tenthsGlyphs.getD (gbRem 25 1) "") :=
  (c3_tenths_glyph_amended 25 1 (by decide) (by decide)).2.1

/-- C4 counterexample: at `p = 29`, `w = 100` the bar holds
`28 + 1 = 29` glyphs, not `floor(29/100·100) + 1 = 30`:
`0.29_f64 * 100.0` is `28.999999999999996`, one below the exact floor. -/
theorem c4_floor_count_counterexample :
    (get_bar 29 100).map String.length = some 29
    ∧ ⌊(29 : ℚ) / 100 * 100⌋.toNat + 1 = 30
    ∧ (29 : ℕ) ≠ 30 := by
  refine ⟨by decide, by decide, by decide⟩

/-- C4 amended: the bar holds exactly `full_bars + 1` glyphs where
`full_bars` is the `f64`-computed floor of `p/100·w` (which can fall one below
the exact floor, as at `p = 29, w = 100`); for fixed width 50 the glyph count
is non-decreasing in `p`, `p = 0` renders exactly 1 glyph and `p = 100`
exactly 51. -/
theorem c4_bar_length_amended (p w : ℕ) (hp : p ≤ 100) (hw : w < 2 ^ 64) :
    (∃ s : String, get_bar p w = some s ∧ s.length = gbFull p w + 1)
    ∧ (∀ p2 : ℕ, p ≤ p2 → p2 ≤ 100 → gbFull p 50 ≤ gbFull p2 50)
    ∧ (get_bar 0 50).map String.length = some 1
    ∧ (get_bar 100 50).map String.length = some 51 := by
  refine ⟨?_, ?_, by decide, by decide⟩
  · have h := gbRem_le p w hp hw
    obtain ⟨i, hidx, hile⟩ : ∃ i, barIndex (gbRem p w) = some i ∧ i ≤ 7 := by
      generalize gbRem p w = r at h
      interval_cases r <;> exact ⟨_, rfl, by norm_num⟩
    refine ⟨strRepeat (BAR_CHARS.getD 7 "") (gbFull p w) ++ BAR_CHARS.getD i "", ?_, ?_⟩
    · unfold get_bar
      rw [hidx]
      rfl
    · rw [String.length_append, strRepeat_length]
      have h7 : (BAR_CHARS.getD 7 "").length = 1 := rfl
      have hi : (BAR_CHARS.getD i "").length = 1 := by interval_cases i <;> rfl
      rw [h7, hi, Nat.mul_one]
  · intro p2 hple hp2
    have hmono : gbScaled p 50 ≤ gbScaled p2 50 := by
      unfold gbScaled
      have hp_eq : fl ((p : ℕ) : ℚ) = ((p : ℕ) : ℚ) := by
        refine fl_fixed _ ⟨(p : ℤ), 0, by omega, ?_⟩
        rw [pow2_zero, mul_one]
        push_cast
        ring
      have hp2_eq : fl ((p2 : ℕ) : ℚ) = ((p2 : ℕ) : ℚ) := by
        refine fl_fixed _ ⟨(p2 : ℤ), 0, by omega, ?_⟩
        rw [pow2_zero, mul_one]
        push_cast
        ring
      rw [hp_eq, hp2_eq]
      apply fl_mono
      · exact mul_nonneg (fl_nonneg _ (by positivity)) (fl_nonneg _ (by positivity))
      · apply mul_le_mul_of_nonneg_right
        · apply fl_mono (by positivity)
          exact (div_le_div_right (by norm_num)).2 (by exact_mod_cast hple)
        · exact fl_nonneg _ (by positivity)
    unfold gbFull
    have := Int.floor_le_floor hmono
    omega

/-- Witness for C4's amended statement at the divergence point `(29, 100)`. -/
theorem c4_bar_length_witness :
    ∃ s : String, get_bar 29 100 = some s ∧ s.length = gbFull 29 100 + 1 :=
  (c4_bar_length_amended 29 100 (by decide) (by decide)).1
